import Mathlib

/-!
Shallow embedding of the token-authentication store of the `journal` log
server (Go sources `server/server_tokens.go`, `server/logserver.go`,
`server/manager.go`).

Modelling conventions:
* Go strings are modelled as `List Char` (`Str`); Go string concatenation
  is `++`, `strings.Split` with a one-character separator is `splitChar`,
  `strings.ToLower` is `toLowerStr` (ASCII folding suffices for the
  properties considered here).
* The persisted token file is carried inside the server state as its raw
  content (`tokenFile : Str`); `bufio.Scanner` line reading is `scanLines`
  (splits on a newline, drops a trailing carriage return, no empty final
  token after a trailing newline), `strings.Join` is `goJoin`.
* Effectful failure points are explicit parameters: `randOk` models the
  success of `crypto/rand.Read` and `writeOk` the success of the file
  append inside `writeTokenToFile`; on failure the Go code returns an
  error before mutating anything, which the model renders by returning
  the input state unchanged.  The random 64-hex-digit token produced on
  success is the parameter `tok` (its value is nondeterministic input).
* Go maps are modelled as association lists; a Go map holds at most one
  value per key, which `lookupStr` (first match) reflects, and `delete`
  is `eraseKey`.
* Out-of-range indexing (a Go panic) is modelled with `Option` where a
  claim is about it (`tokenPreview` for `token[0:10]`) and with `getD`
  totalisation where the surrounding theorems' hypotheses rule it out
  (`parts[1]` inside `RemoveTokens`).
-/

namespace Journal

/-- A Go string, modelled as its list of characters. -/
abbrev Str := List Char

/-- ASCII model of Go `strings.ToLower`. -/
def toLowerStr (s : Str) : Str := s.map Char.toLower

/-- Accumulator-passing core of `splitChar`. -/
def splitCharAux (sep : Char) : Str → Str → List Str
  | [], acc => [acc.reverse]
  | c :: rest, acc =>
    if c = sep then acc.reverse :: splitCharAux sep rest []
    else splitCharAux sep rest (c :: acc)

/-- Model of Go `strings.Split s sep` for a one-character separator:
splits at every occurrence, keeping empty fields, and always returns at
least one element. -/
def splitChar (sep : Char) (s : Str) : List Str := splitCharAux sep s []

/-- Model of Go `strings.Join(parts, sep)`. -/
def goJoin (sep : Str) : List Str → Str
  | [] => []
  | [x] => x
  | x :: y :: rest => x ++ sep ++ goJoin sep (y :: rest)

/-- Drop one trailing carriage return, as `bufio.ScanLines` does on each
line. -/
def dropCR (s : Str) : Str :=
  if s.getLast? = some '\r' then s.dropLast else s

/-- Accumulator-passing core of `scanLines`. -/
def scanLinesAux : Str → Str → List Str
  | [], acc => if acc.isEmpty then [] else [acc.reverse]
  | c :: rest, acc =>
    if c = '\n' then acc.reverse :: scanLinesAux rest []
    else scanLinesAux rest (c :: acc)

/-- Model of reading a file content line by line with `bufio.Scanner`
(split function `bufio.ScanLines`): lines are separated by a newline, a
final line without a trailing newline is still produced, a trailing
newline produces no empty final line, and a trailing carriage return is
stripped from each line. -/
def scanLines (content : Str) : List Str :=
  (scanLinesAux content []).map dropCR

/-- First-match association-list lookup; models reading a Go map, which
holds at most one value per key. -/
def lookupStr {α : Type} : List (Str × α) → Str → Option α
  | [], _ => none
  | (k, v) :: rest, key => if k = key then some v else lookupStr rest key

/-- Model of Go `delete(m, key)` on an association list. -/
def eraseKey {α : Type} (m : List (Str × α)) (key : Str) : List (Str × α) :=
  m.filter (fun p => decide (p.1 ≠ key))

/-- Model of a Go map insert `m[k] = v`: overwrite if present, else
append. -/
def mapInsert {α : Type} (m : List (Str × α)) (k : Str) (v : α) : List (Str × α) :=
  match lookupStr m k with
  | some _ => m.map (fun p => if p.1 = k then (k, v) else p)
  | none => m ++ [(k, v)]

/-- Usage statistic record created alongside a token (`Statistic` in
`logserver.go`); only the fields the token store writes are carried, the
counters and last-seen fields are zero-initialised and never read by the
modelled operations. -/
structure Statistic where
  service : Str
  inst : Str
deriving DecidableEq, Repr

/-- The token store's state (`logServer` receiver of
`server_tokens.go`): the in-memory token map, the statistics map, and
the raw content of the persisted token file at `tokenPath`. -/
structure LogServer where
  tokens : List (Str × Str)
  stats : List (Str × Statistic)
  tokenFile : Str
deriving DecidableEq, Repr

/-- Modelled from the spec: the helper `getCleanKey` is referenced by
`server_tokens.go` but not part of the provided sources.  Per the spec's
data model, the identity key is "(service, instance), case-folded to
lowercase, concatenated with a separator into a single composite key",
the separator being `/` (glossary: "the case-folded service/instance
pair"). -/
def getCleanKey (service inst : Str) : Str :=
  toLowerStr service ++ '/' :: toLowerStr inst

/-- Model of `logServer.AddToken` (`server_tokens.go:14`).  `tok` is the
hex token produced on a successful `crypto/rand.Read` + SHA-256;
`randOk` and `writeOk` are the success of the random read and of the
file append (`fileExists`/open/write failures collapsed into `writeOk`).
The returned state is the post-state (unchanged on every error path, as
in the source). -/
def AddToken (l : LogServer) (service inst tok : Str) (randOk writeOk : Bool) :
    Except String Str × LogServer :=
  let key := getCleanKey service inst
  match lookupStr l.tokens key with
  | some _ =>
    (.error ("AddToken: token for " ++ String.mk key ++ " already exists"), l)
  | none =>
    if randOk = false then
      (.error "AddToken: could not generate a random token", l)
    else if writeOk = false then
      (.error "AddToken: could not write token to file", l)
    else
      (.ok tok,
        { l with
          tokenFile := l.tokenFile ++ key ++ '\t' :: tok ++ ['\n'],
          tokens := l.tokens ++ [(key, tok)],
          stats := mapInsert l.stats key ⟨service, inst⟩ })

/-- Model of `logServer.GetTokens` (`server_tokens.go:49`): a defensive
copy of the token map, which in a pure model is the map itself. -/
def GetTokens (l : LogServer) : List (Str × Str) := l.tokens

/-- Line filter used by `removeTokenFromFile` (`server_tokens.go:154`):
a line is kept when it has exactly two tab-separated fields, its first
field splits into exactly two `/`-separated parts, and that field is not
the key being removed. -/
def keepLine (key line : Str) : Bool :=
  let parts := splitChar '\t' line
  decide (parts.length = 2) &&
    decide ((splitChar '/' (parts.getD 0 [])).length = 2) &&
    decide (parts.getD 0 [] ≠ key)

/-- The lines of the token file surviving a removal of `key`. -/
def keptLines (content key : Str) : List Str :=
  (scanLines content).filter (keepLine key)

/-- Model of `logServer.removeTokenFromFile` (`server_tokens.go:134`) on
the file content: scan all lines, keep the well-formed ones whose key is
not the removed key, append the extra element `"\n"`, and join with
newlines (`strings.Join(tokens, "\n")`). -/
def removeTokenFromFile (content key : Str) : Str :=
  goJoin ['\n'] (keptLines content key ++ [['\n']])

/-- Model of `logServer.RemoveToken` (`server_tokens.go:86`); the file
rewrite is modelled on its success path (I/O failures are not the
subject of any removal claim). -/
def RemoveToken (l : LogServer) (service inst : Str) :
    Except String Unit × LogServer :=
  let key := getCleanKey service inst
  match lookupStr l.tokens key with
  | none => (.error "RemoveToken: no such service/instance", l)
  | some _ =>
    (.ok (),
      { l with
        tokenFile := removeTokenFromFile l.tokenFile key,
        tokens := eraseKey l.tokens key })

/-- Sequential removal loop of `RemoveTokens` (`server_tokens.go:75`):
each collected key is split on `/` and handed to `RemoveToken`; the
first failure is surfaced.  Go reads `parts[1]`, which panics when the
key holds no `/`; the model totalises with `getD` — the theorems'
invariants guarantee two parts. -/
def removeKeys : List Str → LogServer → Except String Unit × LogServer
  | [], l => (.ok (), l)
  | key :: rest, l =>
    let parts := splitChar '/' key
    match RemoveToken l (parts.getD 0 []) (parts.getD 1 []) with
    | (.error e, l') =>
      (.error ("RemoveTokens: could not remove token for key '" ++
        String.mk key ++ "': " ++ e), l')
    | (.ok _, l') => removeKeys rest l'

/-- Model of `logServer.RemoveTokens` (`server_tokens.go:62`): collect
every key whose first `/`-part equals `service` (no case folding in the
source), then remove them one by one. -/
def RemoveTokens (l : LogServer) (service : Str) :
    Except String Unit × LogServer :=
  let keys := (l.tokens.map Prod.fst).filter
    (fun k => decide ((splitChar '/' k).getD 0 [] = service))
  removeKeys keys l

/-- One step of the load loop of `loadTokensFromDisk`
(`server_tokens.go:203`): a line with exactly two tab-separated fields
whose first field has exactly two `/`-parts is inserted into the map;
any other line is skipped. -/
def loadLine (acc : List (Str × Str)) (line : Str) : List (Str × Str) :=
  let parts := splitChar '\t' line
  if (parts.length = 2) ∧ ((splitChar '/' (parts.getD 0 [])).length = 2) then
    mapInsert acc (parts.getD 0 []) (parts.getD 1 [])
  else acc

/-- Model of `logServer.loadTokensFromDisk` (`server_tokens.go:186`):
fold the load step over the persisted file's lines. -/
def loadTokensFromDisk (l : LogServer) : LogServer :=
  { l with tokens := (scanLines l.tokenFile).foldl loadLine l.tokens }

/-! ## Authorizer (`logserver.go`) -/

/-- Incoming gRPC metadata: a map from field name to the list of values
presented for that field (`metadata.MD`). -/
abbrev MD := List (Str × List Str)

/-- One required-metadata check of the loop at `logserver.go:67`: the
field must be present with exactly one value. -/
def hasOneVal (md : MD) (k : Str) : Bool :=
  match lookupStr md k with
  | some slice => decide (slice.length = 1)
  | none => false

/-- The loop at `logserver.go:67` over `service`, `instance`, `token`:
the first field that is absent or not singly-valued, if any. -/
def firstMissing (md : MD) : List Str → Option Str
  | [] => none
  | k :: ks => if hasOneVal md k then firstMissing md ks else some k

/-- The three metadata fields required by `Authorize`, in the order the
source checks them. -/
def metaFields : List Str := ["service".data, "instance".data, "token".data]

/-- The single value of a metadata field (`md[key][0]`), defaulting for
the unreachable absent case. -/
def mdFirst (md : MD) (k : Str) : Str := ((lookupStr md k).getD []).headD []

/-- Model of `LogServer.Authorize` (`logserver.go:58`).  `mdOpt = none`
models `metadata.FromContext` reporting no metadata.  The composite key
is rebuilt inline as in the source
(`fmt.Sprintf("%s/%s", strings.ToLower(service), strings.ToLower(instance))`). -/
def Authorize (l : LogServer) (mdOpt : Option MD) : Except String Unit :=
  match mdOpt with
  | none => .error "Authorize: missing metadata"
  | some md =>
    match firstMissing md metaFields with
    | some k => .error ("Authorize: missing " ++ String.mk k)
    | none =>
      let service := mdFirst md "service".data
      let inst := mdFirst md "instance".data
      let key := toLowerStr service ++ '/' :: toLowerStr inst
      let token := mdFirst md "token".data
      match lookupStr l.tokens key with
      | none => .error "Authorize: unknown service/instance"
      | some realToken =>
        if realToken ≠ token then .error "Authorize: bad token"
        else .ok ()

/-- Model of the unary interceptor built in `New` (`logserver.go:188`):
a failing `Authorize` short-circuits with the very error it produced;
otherwise the wrapped handler's outcome is returned. -/
def intercept (l : LogServer) (mdOpt : Option MD)
    (handler : Except String Unit) : Except String Unit :=
  match Authorize l mdOpt with
  | .error e => .error e
  | .ok _ => handler

/-! ## Command dispatcher (`manager.go`) -/

/-- A typed argument value in a control-plane request (`unixsock.Args`
holds `interface{}` values; the kinds the dispatcher distinguishes are
modelled as a closed variant). -/
inductive Value where
  | str : Str → Value
  | int : Int → Value
  | bool : Bool → Value
deriving DecidableEq, Repr

/-- The subset of `reflect.Kind` the dispatcher compares against. -/
inductive RKind where
  | string
  | int
  | bool
deriving DecidableEq, Repr

/-- Model of `reflect.TypeOf(x).Kind()` on an argument value. -/
def kindOf : Value → RKind
  | .str _ => .string
  | .int _ => .int
  | .bool _ => .bool

/-- The argument bag of a control-plane request. -/
abbrev Args := List (Str × Value)

/-- A control-plane response (`unixsock.Response`). -/
structure Response where
  status : String
  payload : String
  error : String
deriving DecidableEq, Repr

/-- Model of `validArguments` (`manager.go:108`): every required
argument must be present and of the declared kind. -/
def validArguments (args : Args) (required : List (Str × RKind)) : Bool :=
  required.all fun f =>
    match lookupStr args f.1 with
    | some x => decide (kindOf x = f.2)
    | none => false

/-- The shared failure response `respMissingArgs` (`manager.go:122`). -/
def respMissingArgs : Response :=
  { status := "failure", payload := "", error := "Missing/invalid parameters" }

/-- String value of an argument the validator has checked, defaulting
for the unreachable non-string case (`args[name].(string)`). -/
def argString (args : Args) (name : Str) : Str :=
  match lookupStr args name with
  | some (.str s) => s
  | _ => []

/-- Stands in for the external `lentele` table rendering of a newly
created token (`manager.go:158`); its exact text is collaborator-owned
and irrelevant to every claim. -/
def renderTokenTable (service inst token : Str) : String :=
  "Token created for " ++ String.mk service ++ "/" ++ String.mk inst ++
    ": " ++ String.mk token

/-- Model of `managementConsole.CmdTokensAdd` (`manager.go:133`):
validate `service:string`, `instance:string`, short-circuit to
`respMissingArgs` without touching the store, otherwise call `AddToken`
and wrap its outcome.  `tok`, `randOk`, `writeOk` are `AddToken`'s
effect parameters. -/
def CmdTokensAdd (l : LogServer) (args : Args) (tok : Str)
    (randOk writeOk : Bool) : Response × LogServer :=
  let required := [("service".data, RKind.string), ("instance".data, RKind.string)]
  if validArguments args required = false then (respMissingArgs, l)
  else
    let service := argString args "service".data
    let inst := argString args "instance".data
    match AddToken l service inst tok randOk writeOk with
    | (.error e, l') =>
      ({ status := "failure", payload := "",
         error := "Could not add token: " ++ e }, l')
    | (.ok token, l') =>
      ({ status := "success",
         payload := renderTokenTable service inst token, error := "" }, l')

/-- Model of `token[0:10]` at `manager.go:207`: Go string slicing panics
when the string is shorter than the upper bound, rendered as `none`;
otherwise the truncated token with the `...` suffix of the
`fmt.Sprintf("%s...", ...)` around it. -/
def tokenPreview (token : Str) : Option Str :=
  if 10 ≤ token.length then some (token.take 10 ++ "...".data) else none

/-- The row-building loop of `CmdTokensListInstances` (`manager.go:201`):
for every stored key with exactly two `/`-parts whose service part is
the requested (lowercased) service, a row `(instance, truncated token)`
is produced; a panic (`none` from `tokenPreview`) propagates. -/
def listInstanceRows (service : Str) : List (Str × Str) → Option (List (Str × Str))
  | [] => some []
  | (key, token) :: rest =>
    let parts := splitChar '/' key
    if (parts.length = 2) ∧ (parts.getD 0 [] = service) then
      match tokenPreview token with
      | none => none
      | some preview =>
        (listInstanceRows service rest).map
          (fun rows => (parts.getD 1 [], preview) :: rows)
    else listInstanceRows service rest

/-- Stands in for the external `lentele` rendering of the instance
listing (`manager.go:198`); exact text collaborator-owned. -/
def renderInstanceTable (service : Str) (rows : List (Str × Str)) : String :=
  "Service " ++ String.mk service ++ ": " ++ toString rows.length ++ " instances"

/-- Model of `managementConsole.CmdTokensListInstances`
(`manager.go:183`): validate `service:string`, lowercase the service,
build the rows (propagating the slicing panic as `none`), render. -/
def CmdTokensListInstances (l : LogServer) (args : Args) :
    Option (Response × LogServer) :=
  if validArguments args [("service".data, RKind.string)] = false then
    some (respMissingArgs, l)
  else
    let service := toLowerStr (argString args "service".data)
    match listInstanceRows service l.tokens with
    | none => none
    | some rows =>
      some ({ status := "success",
              payload := renderInstanceTable service rows, error := "" }, l)

/-! ## Supporting lemmas -/

theorem splitCharAux_of_not_mem {sep : Char} {cs : Str} (h : sep ∉ cs)
    (acc : Str) : splitCharAux sep cs acc = [acc.reverse ++ cs] := by
  induction cs generalizing acc with
  | nil => simp [splitCharAux]
  | cons c rest ih =>
    have hc : c ≠ sep := fun hEq => h (hEq ▸ List.mem_cons_self c rest)
    have hrest : sep ∉ rest := fun hIn => h (List.mem_cons_of_mem c hIn)
    simp [splitCharAux, hc, ih hrest]

theorem splitCharAux_append {sep : Char} {xs : Str} (h : sep ∉ xs)
    (ys : Str) (acc : Str) :
    splitCharAux sep (xs ++ sep :: ys) acc =
      (acc.reverse ++ xs) :: splitCharAux sep ys [] := by
  induction xs generalizing acc with
  | nil => simp [splitCharAux]
  | cons c rest ih =>
    have hc : c ≠ sep := fun hEq => h (hEq ▸ List.mem_cons_self c rest)
    have hrest : sep ∉ rest := fun hIn => h (List.mem_cons_of_mem c hIn)
    simp [splitCharAux, hc, ih hrest]

theorem splitChar_of_not_mem {sep : Char} {cs : Str} (h : sep ∉ cs) :
    splitChar sep cs = [cs] := by
  simp [splitChar, splitCharAux_of_not_mem h]

theorem splitChar_pair {sep : Char} {a b : Str} (ha : sep ∉ a) (hb : sep ∉ b) :
    splitChar sep (a ++ sep :: b) = [a, b] := by
  simp [splitChar, splitCharAux_append ha, splitCharAux_of_not_mem hb]

theorem scanLinesAux_line {cs : Str} (h : ('\n') ∉ cs) (rest acc : Str) :
    scanLinesAux (cs ++ '\n' :: rest) acc =
      (acc.reverse ++ cs) :: scanLinesAux rest [] := by
  induction cs generalizing acc with
  | nil => simp [scanLinesAux]
  | cons c cs' ih =>
    have hc : c ≠ '\n' := fun hEq => h (hEq ▸ List.mem_cons_self c cs')
    have hcs : ('\n') ∉ cs' := fun hIn => h (List.mem_cons_of_mem c hIn)
    simp [scanLinesAux, hc, ih hcs]

theorem scanLinesAux_join {lines : List Str}
    (h : ∀ line ∈ lines, ('\n') ∉ line) :
    scanLinesAux (List.flatten (lines.map (fun line => line ++ ['\n']))) [] =
      lines := by
  induction lines with
  | nil => simp [scanLinesAux]
  | cons line rest ih =>
    have hline : ('\n') ∉ line := h line (List.mem_cons_self _ _)
    have hrest : ∀ l ∈ rest, ('\n') ∉ l :=
      fun l hl => h l (List.mem_cons_of_mem _ hl)
    have hshape :
        line ++ ['\n'] ++ List.flatten (rest.map (fun l => l ++ ['\n'])) =
          line ++ '\n' :: List.flatten (rest.map (fun l => l ++ ['\n'])) := by
      simp
    simp only [List.map_cons, List.flatten_cons, hshape,
      scanLinesAux_line hline, List.reverse_nil, List.nil_append]
    exact congrArg (line :: ·) (ih hrest)

theorem getLast?_cons_ne {c : Char} {cs : Str} (h : ('\r') ∉ c :: cs) :
    (c :: cs).getLast? ≠ some '\r' := by
  induction cs generalizing c with
  | nil =>
    intro hEq
    have hc : c = '\r' := by simpa using hEq
    exact h (hc ▸ List.mem_cons_self c [])
  | cons d cs' ih =>
    intro hEq
    have hd : ('\r') ∉ d :: cs' := fun hIn => h (List.mem_cons_of_mem c hIn)
    exact ih hd (by simpa [List.getLast?_cons_cons] using hEq)

theorem dropCR_of_not_cr {cs : Str} (h : cs.getLast? ≠ some '\r') :
    dropCR cs = cs := by
  simp [dropCR, h]

theorem map_id_of_mem {α : Type} {f : α → α} :
    ∀ {xs : List α}, (∀ x ∈ xs, f x = x) → xs.map f = xs
  | [], _ => rfl
  | x :: xs, h => by
    have hx : f x = x := h x (List.mem_cons_self _ _)
    have hxs : ∀ y ∈ xs, f y = y := fun y hy => h y (List.mem_cons_of_mem _ hy)
    simp [hx, map_id_of_mem hxs]

theorem scanLines_join {lines : List Str}
    (h : ∀ line ∈ lines, ('\n') ∉ line ∧ dropCR line = line) :
    scanLines (List.flatten (lines.map (fun line => line ++ ['\n']))) =
      lines := by
  unfold scanLines
  rw [scanLinesAux_join (fun l hl => (h l hl).1)]
  exact map_id_of_mem (fun l hl => (h l hl).2)

theorem lookupStr_eq_none_iff {α : Type} {m : List (Str × α)} {k : Str} :
    lookupStr m k = none ↔ ∀ p ∈ m, p.1 ≠ k := by
  induction m with
  | nil => simp [lookupStr]
  | cons q rest ih =>
    by_cases hq : q.1 = k
    · simp only [lookupStr, hq, if_pos rfl]
      constructor
      · intro hcontra; cases hcontra
      · intro hAll; exact absurd hq (hAll q (List.mem_cons_self _ _))
    · simp only [lookupStr, if_neg hq, ih]
      constructor
      · intro hAll p hp
        rcases List.mem_cons.mp hp with hEq | hMem
        · exact hEq ▸ hq
        · exact hAll p hMem
      · intro hAll p hp
        exact hAll p (List.mem_cons_of_mem _ hp)

theorem lookupStr_append_right {α : Type} {m : List (Str × α)} {k : Str}
    (h : lookupStr m k = none) (suffix : List (Str × α)) :
    lookupStr (m ++ suffix) k = lookupStr suffix k := by
  induction m with
  | nil => simp
  | cons q rest ih =>
    by_cases hq : q.1 = k
    · simp [lookupStr, hq] at h
    · simp only [lookupStr, hq, if_neg hq, List.cons_append] at h ⊢
      exact ih h

theorem lookupStr_isSome_of_mem {α : Type} {m : List (Str × α)} {k : Str}
    (h : k ∈ m.map Prod.fst) : (lookupStr m k).isSome := by
  induction m with
  | nil => simp at h
  | cons q rest ih =>
    by_cases hq : q.1 = k
    · simp [lookupStr, hq]
    · simp only [List.map_cons, List.mem_cons] at h
      rcases h with hEq | hMem
      · exact absurd hEq.symm hq
      · simp only [lookupStr, if_neg hq]
        exact ih hMem

theorem lookupStr_eraseKey_ne {α : Type} {m : List (Str × α)} {k k' : Str}
    (h : k' ≠ k) : lookupStr (eraseKey m k) k' = lookupStr m k' := by
  induction m with
  | nil => rfl
  | cons q rest ih =>
    by_cases hqk : q.1 = k
    · have hq' : q.1 ≠ k' := by
        intro hEq
        exact h (by rw [← hEq]; exact hqk)
      have hdrop : eraseKey (q :: rest) k = eraseKey rest k := by
        simp [eraseKey, List.filter_cons, hqk]
      rw [hdrop, ih]
      simp [lookupStr, hq']
    · have hkeep : eraseKey (q :: rest) k = q :: eraseKey rest k := by
        simp [eraseKey, List.filter_cons, hqk]
      rw [hkeep]
      by_cases hq' : q.1 = k'
      · simp [lookupStr, hq']
      · simp [lookupStr, hq', ih]

theorem filter_key_eq_nil {α : Type} {m : List (Str × α)} {k : Str}
    (h : lookupStr m k = none) :
    m.filter (fun p => decide (p.1 = k)) = [] := by
  rw [List.filter_eq_nil_iff]
  intro p hp
  simpa using (lookupStr_eq_none_iff.mp h) p hp

theorem goJoin_newline (xs : List Str) :
    goJoin ['\n'] (xs ++ [['\n']]) =
      List.flatten (xs.map (fun line => line ++ ['\n'])) ++ ['\n'] := by
  induction xs with
  | nil => simp [goJoin]
  | cons x xs ih =>
    cases xs with
    | nil => simp [goJoin]
    | cons y ys =>
      have hstep : goJoin ['\n'] ((x :: y :: ys) ++ [['\n']]) =
          x ++ ['\n'] ++ goJoin ['\n'] ((y :: ys) ++ [['\n']]) := rfl
      rw [hstep, ih]
      simp

/-! ## Claims -/

/-- C1: `AddToken` on an already-present composite key fails with the
already-exists error and leaves the store unchanged; on a fresh key,
with the token generation and the file append succeeding, it returns
the generated token, appends exactly one line to the persisted file,
inserts into memory, a subsequent listing holds exactly one entry for
the case-folded composite key, and a second `AddToken` for the same
pair fails with the already-exists error and leaves the state
unchanged. -/
theorem addToken_unique_key_spec (l : LogServer) (service inst tok tok' : Str)
    (randOk writeOk randOk' writeOk' : Bool) :
    ((lookupStr l.tokens (getCleanKey service inst)).isSome →
      AddToken l service inst tok randOk writeOk =
        (.error ("AddToken: token for " ++
          String.mk (getCleanKey service inst) ++ " already exists"), l)) ∧
    (lookupStr l.tokens (getCleanKey service inst) = none →
      ∃ l', AddToken l service inst tok true true = (.ok tok, l') ∧
        l'.tokenFile =
          l.tokenFile ++ getCleanKey service inst ++ '\t' :: tok ++ ['\n'] ∧
        l'.tokens = l.tokens ++ [(getCleanKey service inst, tok)] ∧
        (GetTokens l').filter
            (fun p => decide (p.1 = getCleanKey service inst)) =
          [(getCleanKey service inst, tok)] ∧
        AddToken l' service inst tok' randOk' writeOk' =
          (.error ("AddToken: token for " ++
            String.mk (getCleanKey service inst) ++ " already exists"), l')) := by
  constructor
  · intro hSome
    obtain ⟨t, ht⟩ := Option.isSome_iff_exists.mp hSome
    simp [AddToken, ht]
  · intro hNone
    refine ⟨{ l with
        tokenFile :=
          l.tokenFile ++ getCleanKey service inst ++ '\t' :: tok ++ ['\n'],
        tokens := l.tokens ++ [(getCleanKey service inst, tok)],
        stats := mapInsert l.stats (getCleanKey service inst)
          ⟨service, inst⟩ },
      by simp [AddToken, hNone], rfl, rfl, ?_, ?_⟩
    · show (l.tokens ++ [(getCleanKey service inst, tok)]).filter _ = _
      rw [List.filter_append, filter_key_eq_nil hNone]
      simp
    · have hFound :
          lookupStr (l.tokens ++ [(getCleanKey service inst, tok)])
            (getCleanKey service inst) = some tok := by
        rw [lookupStr_append_right hNone]
        simp [lookupStr]
      simp [AddToken, hFound]

/-- C1 witness: the two branches of `addToken_unique_key_spec` applied
at concrete inputs (an occupied store and an empty one). -/
theorem addToken_unique_key_spec_witness :
    (AddToken ⟨[("a/b".data, "t0".data)], [], []⟩ "A".data "B".data
        "t1".data true true =
      (.error ("AddToken: token for " ++
        String.mk (getCleanKey "A".data "B".data) ++ " already exists"),
       ⟨[("a/b".data, "t0".data)], [], []⟩)) ∧
    (∃ l', AddToken ⟨[], [], []⟩ "A".data "B".data "t1".data true true =
        (.ok "t1".data, l') ∧
      l'.tokenFile = [] ++ getCleanKey "A".data "B".data ++
        '\t' :: "t1".data ++ ['\n'] ∧
      l'.tokens = [] ++ [(getCleanKey "A".data "B".data, "t1".data)] ∧
      (GetTokens l').filter
          (fun p => decide (p.1 = getCleanKey "A".data "B".data)) =
        [(getCleanKey "A".data "B".data, "t1".data)] ∧
      AddToken l' "A".data "B".data "t2".data true true =
        (.error ("AddToken: token for " ++
          String.mk (getCleanKey "A".data "B".data) ++ " already exists"),
         l')) :=
  ⟨(addToken_unique_key_spec ⟨[("a/b".data, "t0".data)], [], []⟩ "A".data
      "B".data "t1".data "t1".data true true true true).1 (by decide),
   (addToken_unique_key_spec ⟨[], [], []⟩ "A".data "B".data "t1".data
      "t2".data true true true true).2 (by decide)⟩

/-- C2: when the composite key is fresh but appending the new token
line to the persisted file fails, `AddToken` returns an error and the
whole store — in-memory token map and persisted file alike — is the
unchanged input state, so memory and file cannot diverge. -/
theorem addToken_append_failure_no_insert (l : LogServer)
    (service inst tok : Str)
    (h : lookupStr l.tokens (getCleanKey service inst) = none) :
    AddToken l service inst tok true false =
      (.error "AddToken: could not write token to file", l) := by
  simp [AddToken, h]

/-- C2 witness: `addToken_append_failure_no_insert` at a concrete
store. -/
theorem addToken_append_failure_no_insert_witness :
    lookupStr (LogServer.tokens ⟨[], [], []⟩)
        (getCleanKey "svc".data "box".data) = none ∧
    AddToken ⟨[], [], []⟩ "svc".data "box".data "tok".data true false =
      (.error "AddToken: could not write token to file", ⟨[], [], []⟩) :=
  ⟨by decide,
   addToken_append_failure_no_insert ⟨[], [], []⟩ "svc".data "box".data
     "tok".data (by decide)⟩

/-- C7: on removal the persisted file is rewritten as exactly the
remaining (kept) lines, each terminated by a newline, followed by one
trailing blank line. -/
theorem removeTokenFromFile_trailing_blank (content key : Str) :
    removeTokenFromFile content key =
      List.flatten ((keptLines content key).map (fun line => line ++ ['\n']))
        ++ ['\n'] := by
  unfold removeTokenFromFile
  exact goJoin_newline _

/-- C10: any line of the persisted file that does not have exactly two
tab-separated fields with a two-part `service/instance` first field is
dropped by the removal rewrite, whatever key is being removed. -/
theorem removeTokenFromFile_drops_malformed (content key line : Str)
    (hmem : line ∈ scanLines content)
    (hbad : ¬ ((splitChar '\t' line).length = 2 ∧
      (splitChar '/' ((splitChar '\t' line).getD 0 [])).length = 2)) :
    line ∉ keptLines content key := by
  intro hIn
  have hkeep := (List.mem_filter.mp hIn).2
  simp only [keepLine, Bool.and_eq_true, decide_eq_true_eq] at hkeep
  exact hbad ⟨hkeep.1.1, hkeep.1.2⟩

/-- C10 witness: `removeTokenFromFile_drops_malformed` on a file
holding a malformed line unrelated to the removed key. -/
theorem removeTokenFromFile_drops_malformed_witness :
    "garbage".data ∈ scanLines "garbage\nsvc/box\ttok\n".data ∧
    ¬ ((splitChar '\t' "garbage".data).length = 2 ∧
      (splitChar '/'
        ((splitChar '\t' "garbage".data).getD 0 [])).length = 2) ∧
    "garbage".data ∉ keptLines "garbage\nsvc/box\ttok\n".data "x/y".data :=
  ⟨by decide, by decide,
   removeTokenFromFile_drops_malformed "garbage\nsvc/box\ttok\n".data
     "x/y".data "garbage".data (by decide) (by decide)⟩

/-- The requirement that all three metadata fields are present exactly
once, as one Boolean. -/
def allPresent (md : MD) : Bool :=
  hasOneVal md "service".data && hasOneVal md "instance".data &&
    hasOneVal md "token".data

/-- The composite key `Authorize` builds from the request metadata. -/
def authKey (md : MD) : Str :=
  toLowerStr (mdFirst md "service".data) ++
    '/' :: toLowerStr (mdFirst md "instance".data)

theorem firstMissing_none_iff (md : MD) :
    firstMissing md metaFields = none ↔ allPresent md = true := by
  cases h1 : hasOneVal md "service".data <;>
    cases h2 : hasOneVal md "instance".data <;>
      cases h3 : hasOneVal md "token".data <;>
        simp [firstMissing, metaFields, allPresent, h1, h2, h3]

theorem firstMissing_mem {md : MD} :
    ∀ {ks : List Str} {k : Str}, firstMissing md ks = some k → k ∈ ks := by
  intro ks
  induction ks with
  | nil => intro k h; cases h
  | cons a rest ih =>
    intro k h
    by_cases ha : hasOneVal md a
    · simp only [firstMissing, if_pos ha] at h
      exact List.mem_cons_of_mem _ (ih h)
    · simp only [firstMissing, if_neg ha, Option.some.injEq] at h
      exact h ▸ List.mem_cons_self _ _

/-- C3: `Authorize` denies with the missing-credentials error when the
metadata is absent or any of the three fields is not present exactly
once, with the unknown-identity error when no token is stored under the
case-folded composite key, with the bad-token error when the stored
token differs from the presented one, and succeeds exactly when the
stored token for the case-folded key equals the presented token. -/
theorem authorize_outcomes (l : LogServer) (md : MD) :
    (Authorize l none = .error "Authorize: missing metadata") ∧
    (allPresent md = false →
      ∃ k, k ∈ metaFields ∧
        Authorize l (some md) =
          .error ("Authorize: missing " ++ String.mk k)) ∧
    (allPresent md = true → lookupStr l.tokens (authKey md) = none →
      Authorize l (some md) = .error "Authorize: unknown service/instance") ∧
    (∀ t, allPresent md = true → lookupStr l.tokens (authKey md) = some t →
      t ≠ mdFirst md "token".data →
      Authorize l (some md) = .error "Authorize: bad token") ∧
    (Authorize l (some md) = .ok () ↔
      (allPresent md = true ∧
        lookupStr l.tokens (authKey md) =
          some (mdFirst md "token".data))) := by
  refine ⟨rfl, ?_, ?_, ?_, ?_⟩
  · intro hap
    have hne : firstMissing md metaFields ≠ none := fun hEq => by
      simpa [hap] using (firstMissing_none_iff md).mp hEq
    obtain ⟨k, hk⟩ := Option.ne_none_iff_exists'.mp hne
    exact ⟨k, firstMissing_mem hk, by simp [Authorize, hk]⟩
  · intro hap hlk
    have hfm := (firstMissing_none_iff md).mpr hap
    simp only [authKey] at hlk
    simp [Authorize, hfm, hlk]
  · intro t hap hlk ht
    have hfm := (firstMissing_none_iff md).mpr hap
    simp only [authKey] at hlk
    simp [Authorize, hfm, hlk, ht]
  · constructor
    · intro hok
      have hfm : firstMissing md metaFields = none := by
        cases hfm : firstMissing md metaFields with
        | none => rfl
        | some k => simp [Authorize, hfm] at hok
      refine ⟨(firstMissing_none_iff md).mp hfm, ?_⟩
      cases hlk : lookupStr l.tokens (authKey md) with
      | none =>
        simp only [authKey] at hlk
        simp [Authorize, hfm, hlk] at hok
      | some t =>
        by_cases ht : t = mdFirst md "token".data
        · exact congrArg some ht
        · have hlk' := hlk
          simp only [authKey] at hlk'
          simp [Authorize, hfm, hlk', ht] at hok
    · rintro ⟨hap, hlk⟩
      have hfm := (firstMissing_none_iff md).mpr hap
      simp only [authKey] at hlk
      simp [Authorize, hfm, hlk]

/-- C3 witness: `authorize_outcomes` applied at a concrete store for a
request with no metadata fields and for a correct request. -/
theorem authorize_outcomes_witness :
    (∃ k, k ∈ metaFields ∧
      Authorize ⟨[("svc/box".data, "tok".data)], [], []⟩ (some []) =
        .error ("Authorize: missing " ++ String.mk k)) ∧
    Authorize ⟨[("svc/box".data, "tok".data)], [], []⟩
      (some [("service".data, ["Svc".data]),
             ("instance".data, ["Box".data]),
             ("token".data, ["tok".data])]) = .ok () :=
  ⟨(authorize_outcomes ⟨[("svc/box".data, "tok".data)], [], []⟩ []).2.1
      (by decide),
   (authorize_outcomes ⟨[("svc/box".data, "tok".data)], [], []⟩
      [("service".data, ["Svc".data]), ("instance".data, ["Box".data]),
       ("token".data, ["tok".data])]).2.2.2.2.mpr ⟨by decide, by decide⟩⟩

/-- C4 counterexample: two denied requests whose error values, handed
verbatim to the remote caller by the interceptor, differ — the deny is
not a single generic error, it reveals the failure reason. -/
theorem intercept_deny_distinguishable :
    intercept ⟨[("svc/box".data, "tok".data)], [], []⟩ (some [])
        (.ok ()) = .error "Authorize: missing service" ∧
    intercept ⟨[("svc/box".data, "tok".data)], [], []⟩
        (some [("service".data, ["svc".data]),
               ("instance".data, ["box".data]),
               ("token".data, ["bad".data])]) (.ok ()) =
      .error "Authorize: bad token" ∧
    ("Authorize: missing service" : String) ≠ "Authorize: bad token" :=
  ⟨rfl, rfl, by decide⟩

/-- C4 amended: the interceptor delivers the `Authorize` error value
itself to the remote caller, so denied requests with different failure
reasons yield distinguishable errors at the RPC surface. -/
theorem intercept_propagates_deny (l : LogServer) (mdOpt : Option MD)
    (handler : Except String Unit) (e : String)
    (h : Authorize l mdOpt = .error e) :
    intercept l mdOpt handler = .error e := by
  simp [intercept, h]

/-- C4 amended witness: `intercept_propagates_deny` at a concrete
denied request. -/
theorem intercept_propagates_deny_witness :
    Authorize ⟨[], [], []⟩ none = .error "Authorize: missing metadata" ∧
    intercept ⟨[], [], []⟩ none (.ok ()) =
      .error "Authorize: missing metadata" :=
  ⟨rfl,
   intercept_propagates_deny ⟨[], [], []⟩ none (.ok ())
     "Authorize: missing metadata" rfl⟩

theorem validArguments_string_elim {args : Args} {name : Str}
    (h : (match lookupStr args name with
          | some x => decide (kindOf x = RKind.string)
          | none => false) = true) :
    ∃ s, lookupStr args name = some (.str s) := by
  cases hl : lookupStr args name with
  | none => rw [hl] at h; cases h
  | some v =>
    cases v with
    | str s => exact ⟨s, rfl⟩
    | int n => rw [hl] at h; simp [kindOf] at h
    | bool b => rw [hl] at h; simp [kindOf] at h

/-- C8: `tokens.add` with a missing or non-string `service` or
`instance` argument short-circuits to the standard missing-parameters
response with the store untouched; with both present as strings the
`AddToken` handler is invoked on them and its outcome is returned. -/
theorem cmdTokensAdd_argument_validation (l : LogServer) (args : Args)
    (tok : Str) (randOk writeOk : Bool) :
    (validArguments args
        [("service".data, RKind.string), ("instance".data, RKind.string)] =
          false →
      CmdTokensAdd l args tok randOk writeOk = (respMissingArgs, l)) ∧
    (validArguments args
        [("service".data, RKind.string), ("instance".data, RKind.string)] =
          true →
      ∃ s i, lookupStr args "service".data = some (.str s) ∧
        lookupStr args "instance".data = some (.str i) ∧
        CmdTokensAdd l args tok randOk writeOk =
          (match AddToken l s i tok randOk writeOk with
            | (.error e, l') =>
              ({ status := "failure", payload := "",
                 error := "Could not add token: " ++ e }, l')
            | (.ok token, l') =>
              ({ status := "success",
                 payload := renderTokenTable s i token, error := "" }, l'))) := by
  constructor
  · intro hbad
    simp [CmdTokensAdd, hbad]
  · intro hgood
    have hpair := hgood
    simp only [validArguments, List.all_cons, List.all_nil,
      Bool.and_eq_true, Bool.and_true] at hpair
    obtain ⟨s, hs⟩ := validArguments_string_elim hpair.1
    obtain ⟨i, hi⟩ := validArguments_string_elim hpair.2
    refine ⟨s, i, hs, hi, ?_⟩
    have hsArg : argString args "service".data = s := by simp [argString, hs]
    have hiArg : argString args "instance".data = i := by simp [argString, hi]
    simp only [CmdTokensAdd, hgood, Bool.true_eq_false, if_neg, hsArg, hiArg]
    rfl

/-- C8 witness: `cmdTokensAdd_argument_validation` at an empty argument
bag and at a well-typed one. -/
theorem cmdTokensAdd_argument_validation_witness :
    CmdTokensAdd ⟨[], [], []⟩ [] "tok".data true true =
      (respMissingArgs, ⟨[], [], []⟩) ∧
    (∃ s i,
      lookupStr [(("service".data : Str), Value.str "A".data),
                 (("instance".data : Str), Value.str "B".data)]
        "service".data = some (.str s) ∧
      lookupStr [(("service".data : Str), Value.str "A".data),
                 (("instance".data : Str), Value.str "B".data)]
        "instance".data = some (.str i) ∧
      CmdTokensAdd ⟨[], [], []⟩
          [(("service".data : Str), Value.str "A".data),
           (("instance".data : Str), Value.str "B".data)]
          "tok".data true true =
        (match AddToken ⟨[], [], []⟩ s i "tok".data true true with
          | (.error e, l') =>
            ({ status := "failure", payload := "",
               error := "Could not add token: " ++ e }, l')
          | (.ok token, l') =>
            ({ status := "success",
               payload := renderTokenTable s i token, error := "" }, l'))) :=
  ⟨(cmdTokensAdd_argument_validation ⟨[], [], []⟩ [] "tok".data true true).1
      (by decide),
   (cmdTokensAdd_argument_validation ⟨[], [], []⟩
      [(("service".data : Str), Value.str "A".data),
       (("instance".data : Str), Value.str "B".data)]
      "tok".data true true).2 (by decide)⟩

theorem listInstanceRows_isSome {service : Str} :
    ∀ {tokens : List (Str × Str)},
      (∀ p ∈ tokens, (splitChar '/' p.1).length = 2 →
        (splitChar '/' p.1).getD 0 [] = service → 10 ≤ p.2.length) →
      (listInstanceRows service tokens).isSome
  | [], _ => by simp [listInstanceRows]
  | (key, token) :: rest, h => by
    have hrest := listInstanceRows_isSome
      (fun q hq => h q (List.mem_cons_of_mem _ hq))
    by_cases hc : (splitChar '/' key).length = 2 ∧
        (splitChar '/' key).getD 0 [] = service
    · have hlen : 10 ≤ token.length :=
        h (key, token) (List.mem_cons_self _ _) hc.1 hc.2
      have hprev : tokenPreview token =
          some (token.take 10 ++ "...".data) := by
        simp [tokenPreview, hlen]
      obtain ⟨rows, hrows⟩ := Option.isSome_iff_exists.mp hrest
      simp only [listInstanceRows]
      rw [if_pos hc, hprev, hrows]
      rfl
    · simp only [listInstanceRows]
      rw [if_neg hc]
      exact hrest

/-- C9: the instance listing slices every matching token to its first
ten characters, which is in bounds exactly when every stored token of
the requested service has at least ten characters; a store loaded from
a hand-edited file line with a shorter token (which the loader accepts)
makes the listing's indexing go out of bounds (a Go panic, modelled as
`none`). -/
theorem listInstances_token_slice_bounds :
    (∀ (tokens : List (Str × Str)) (service : Str),
      (∀ p ∈ tokens, (splitChar '/' p.1).length = 2 →
        (splitChar '/' p.1).getD 0 [] = service → 10 ≤ p.2.length) →
      (listInstanceRows service tokens).isSome) ∧
    (loadTokensFromDisk ⟨[], [], "svc/box\tshort\n".data⟩).tokens =
      [("svc/box".data, "short".data)] ∧
    CmdTokensListInstances (loadTokensFromDisk ⟨[], [], "svc/box\tshort\n".data⟩)
      [(("service".data : Str), Value.str "svc".data)] = none :=
  ⟨fun _ _ h => listInstanceRows_isSome h, by decide, by decide⟩

/-- C9 witness: the safety direction of `listInstances_token_slice_bounds`
applied at a store whose only matching token has exactly ten
characters. -/
theorem listInstances_token_slice_bounds_witness :
    (listInstanceRows "svc".data
      [(("svc/box".data : Str), "abcdefghij".data)]).isSome :=
  listInstances_token_slice_bounds.1
    [(("svc/box".data : Str), "abcdefghij".data)] "svc".data (by decide)

/-- A composite key in canonical form: a lowercase service and a
lowercase instance joined by a single separator. -/
def CleanKey (k : Str) : Prop :=
  ∃ s i, k = s ++ '/' :: i ∧ ('/') ∉ s ∧ ('/') ∉ i ∧
    toLowerStr s = s ∧ toLowerStr i = i

/-- A store whose keys are canonical and pairwise distinct — the shape
of every store reachable through `AddToken` and the loader's
well-formedness checks. -/
def CleanStore (l : LogServer) : Prop :=
  (∀ p ∈ l.tokens, CleanKey p.1) ∧ (l.tokens.map Prod.fst).Nodup

theorem removeKeys_spec :
    ∀ (ks : List Str) (l : LogServer), ks.Nodup →
      (∀ k ∈ ks, CleanKey k) →
      (∀ k ∈ ks, (lookupStr l.tokens k).isSome) →
      (removeKeys ks l).1 = .ok () ∧
      (removeKeys ks l).2.tokens =
        l.tokens.filter (fun p => decide (p.1 ∉ ks))
  | [], l, _, _, _ => by simp [removeKeys]
  | k :: ks, l, hnd, hclean, hmem => by
    obtain ⟨s, i, hk, hs, hi, hls, hli⟩ := hclean k (List.mem_cons_self _ _)
    have hparts : splitChar '/' k = [s, i] := by
      rw [hk]; exact splitChar_pair hs hi
    have hkey : getCleanKey s i = k := by
      rw [getCleanKey, hls, hli, hk]
    obtain ⟨v, hv⟩ := Option.isSome_iff_exists.mp
      (hmem k (List.mem_cons_self _ _))
    have hstep : removeKeys (k :: ks) l = removeKeys ks
        { l with tokenFile := removeTokenFromFile l.tokenFile k,
                 tokens := eraseKey l.tokens k } := by
      simp [removeKeys, hparts, RemoveToken, hkey, hv]
    have hnd' := List.nodup_cons.mp hnd
    have hfresh : ∀ k' ∈ ks,
        (lookupStr (eraseKey l.tokens k) k').isSome := by
      intro k' hk'
      have hne : k' ≠ k := fun hEq => hnd'.1 (hEq ▸ hk')
      rw [lookupStr_eraseKey_ne hne]
      exact hmem k' (List.mem_cons_of_mem _ hk')
    have ihres := removeKeys_spec ks
      { l with tokenFile := removeTokenFromFile l.tokenFile k,
               tokens := eraseKey l.tokens k }
      hnd'.2 (fun k' hk' => hclean k' (List.mem_cons_of_mem _ hk')) hfresh
    refine ⟨by rw [hstep]; exact ihres.1, ?_⟩
    rw [hstep, ihres.2]
    show (eraseKey l.tokens k).filter _ = _
    rw [eraseKey, List.filter_filter]
    apply List.filter_congr
    intro p _
    by_cases h1 : p.1 = k <;> by_cases h2 : p.1 ∈ ks <;>
      simp [h1, h2]

/-- C5 counterexample: `RemoveTokens` matches the stored keys' service
component against its argument case-sensitively, so removing service
`"Billing"` from a store owning the case-folded key `billing/prod`
removes nothing and still reports success, although `Billing` names the
owning service up to letter case. -/
theorem removeTokens_case_variant_noop :
    RemoveTokens ⟨[("billing/prod".data, "t".data)], [], []⟩
        "Billing".data =
      (.ok (), ⟨[("billing/prod".data, "t".data)], [], []⟩) ∧
    toLowerStr "Billing".data = "billing".data ∧
    lookupStr [(("billing/prod".data : Str), ("t".data : Str))]
      "billing/prod".data = some "t".data :=
  ⟨rfl, by decide, by decide⟩

/-- C5 amended: for every store with canonical, pairwise-distinct keys,
`RemoveTokens s` succeeds and removes exactly the keys whose service
component equals `s` verbatim (case-sensitively), leaving all other
services' keys untouched; when no stored key matches, the call is a
complete no-op returning no error. -/
theorem removeTokens_exact_match (l : LogServer) (service : Str)
    (h : CleanStore l) :
    (RemoveTokens l service).1 = .ok () ∧
    (RemoveTokens l service).2.tokens =
      l.tokens.filter
        (fun p => decide ((splitChar '/' p.1).getD 0 [] ≠ service)) ∧
    ((∀ p ∈ l.tokens, (splitChar '/' p.1).getD 0 [] ≠ service) →
      (RemoveTokens l service).2 = l) := by
  obtain ⟨hclean, hnd⟩ := h
  set ks := (l.tokens.map Prod.fst).filter
    (fun k => decide ((splitChar '/' k).getD 0 [] = service)) with hks
  have hRT : RemoveTokens l service = removeKeys ks l := by
    rw [RemoveTokens]
  have hndks : ks.Nodup := hnd.filter _
  have hcleanks : ∀ k ∈ ks, CleanKey k := by
    intro k hkm
    obtain ⟨p, hp, hpk⟩ := List.mem_map.mp (List.mem_filter.mp hkm).1
    exact hpk ▸ hclean p hp
  have hmemks : ∀ k ∈ ks, (lookupStr l.tokens k).isSome := fun k hkm =>
    lookupStr_isSome_of_mem (List.mem_filter.mp hkm).1
  have hmain := removeKeys_spec ks l hndks hcleanks hmemks
  refine ⟨by rw [hRT]; exact hmain.1, ?_, ?_⟩
  · rw [hRT, hmain.2]
    apply List.filter_congr
    intro p hp
    by_cases hps : (splitChar '/' p.1)[0]?.getD [] = service
    · have hin : p.1 ∈ ks := List.mem_filter.mpr
        ⟨List.mem_map.mpr ⟨p, hp, rfl⟩, by simp [hps]⟩
      simp [hin, hps]
    · have hout : p.1 ∉ ks := fun hIn =>
        hps (by simpa using (List.mem_filter.mp hIn).2)
      simp [hout, hps]
  · intro hnone
    have hksnil : ks = [] := by
      rw [hks]
      apply List.filter_eq_nil_iff.mpr
      intro k hkm
      obtain ⟨p, hp, hpk⟩ := List.mem_map.mp hkm
      have hnn := hpk ▸ hnone p hp
      simpa using hnn
    rw [hRT, hksnil]
    rfl

/-- C5 amended witness: `removeTokens_exact_match` on a two-service
store removes the matched service's key and keeps the other. -/
theorem removeTokens_exact_match_witness :
    (RemoveTokens ⟨[("billing/prod".data, "t1".data),
        ("api/box".data, "t2".data)], [], []⟩ "billing".data).1 =
      .ok () ∧
    (RemoveTokens ⟨[("billing/prod".data, "t1".data),
        ("api/box".data, "t2".data)], [], []⟩ "billing".data).2.tokens =
      [("api/box".data, "t2".data)] := by
  have hck1 : CleanKey "billing/prod".data :=
    ⟨"billing".data, "prod".data, by decide, by decide, by decide,
     by decide, by decide⟩
  have hck2 : CleanKey "api/box".data :=
    ⟨"api".data, "box".data, by decide, by decide, by decide,
     by decide, by decide⟩
  have hcs : CleanStore ⟨[("billing/prod".data, "t1".data),
      ("api/box".data, "t2".data)], [], []⟩ := by
    refine ⟨?_, by decide⟩
    intro p hp
    rcases List.mem_cons.mp hp with hEq | hp2
    · rw [hEq]; exact hck1
    · rcases List.mem_cons.mp hp2 with hEq2 | hnil
      · rw [hEq2]; exact hck2
      · cases hnil
  have hres := removeTokens_exact_match
    ⟨[("billing/prod".data, "t1".data), ("api/box".data, "t2".data)],
     [], []⟩ "billing".data hcs
  refine ⟨hres.1, ?_⟩
  rw [hres.2.1]
  decide

/-- Driver for the round-trip property: performs a sequence of
`AddToken` calls (each with successful generation and append in
`AddToken`'s effect parameters), stopping with `none` on the first
failure. -/
def addAll : List (Str × Str × Str) → LogServer → Option LogServer
  | [], l => some l
  | c :: rest, l =>
    match AddToken l c.1 c.2.1 c.2.2 true true with
    | (.ok _, l') => addAll rest l'
    | (.error _, _) => none

/-- Validity of one `AddToken` call for the round trip: the cleaned
composite key and the token stay clear of the persisted file's
delimiters, the key keeps exactly two `/`-parts, and the token does not
end in a carriage return — all true of real lowercase-hex tokens and of
service/instance names free of separators. -/
def ValidCall (c : Str × Str × Str) : Prop :=
  ('\n') ∉ getCleanKey c.1 c.2.1 ∧ ('\t') ∉ getCleanKey c.1 c.2.1 ∧
    (splitChar '/' (getCleanKey c.1 c.2.1)).length = 2 ∧
    ('\n') ∉ c.2.2 ∧ ('\t') ∉ c.2.2 ∧ ('\r') ∉ c.2.2

instance (c : Str × Str × Str) : Decidable (ValidCall c) := by
  unfold ValidCall
  infer_instance

/-- The `(composite key, token)` pairs a call sequence creates. -/
def pairsOf (ts : List (Str × Str × Str)) : List (Str × Str) :=
  ts.map (fun c => (getCleanKey c.1 c.2.1, c.2.2))

/-- The file content an `AddToken` sequence appends to an empty file. -/
def fileOf (pairs : List (Str × Str)) : Str :=
  List.flatten (pairs.map (fun p => p.1 ++ '\t' :: p.2 ++ ['\n']))

theorem addAll_spec :
    ∀ (ts : List (Str × Str × Str)) (l : LogServer),
      (ts.map (fun c => getCleanKey c.1 c.2.1)).Nodup →
      (∀ c ∈ ts, lookupStr l.tokens (getCleanKey c.1 c.2.1) = none) →
      ∃ lf, addAll ts l = some lf ∧
        lf.tokens = l.tokens ++ pairsOf ts ∧
        lf.tokenFile = l.tokenFile ++ fileOf (pairsOf ts)
  | [], l, _, _ => ⟨l, rfl, by simp [pairsOf, fileOf], by simp [pairsOf, fileOf]⟩
  | c :: rest, l, hnd, hfresh => by
    have hkey := hfresh c (List.mem_cons_self _ _)
    have hstep : AddToken l c.1 c.2.1 c.2.2 true true =
        (.ok c.2.2, { l with
          tokenFile := l.tokenFile ++
            getCleanKey c.1 c.2.1 ++ '\t' :: c.2.2 ++ ['\n'],
          tokens := l.tokens ++ [(getCleanKey c.1 c.2.1, c.2.2)],
          stats := mapInsert l.stats (getCleanKey c.1 c.2.1)
            ⟨c.1, c.2.1⟩ }) := by
      simp [AddToken, hkey]
    rw [List.map_cons] at hnd
    have hnd' := List.nodup_cons.mp hnd
    have hfresh' : ∀ c' ∈ rest,
        lookupStr (l.tokens ++ [(getCleanKey c.1 c.2.1, c.2.2)])
          (getCleanKey c'.1 c'.2.1) = none := by
      intro c' hc'
      have hne : getCleanKey c.1 c.2.1 ≠ getCleanKey c'.1 c'.2.1 :=
        fun hEq => hnd'.1 (hEq ▸ List.mem_map.mpr ⟨c', hc', rfl⟩)
      rw [lookupStr_append_right (hfresh c' (List.mem_cons_of_mem _ hc'))]
      simp [lookupStr, hne]
    obtain ⟨lf, h1, h2, h3⟩ := addAll_spec rest
      { l with
        tokenFile := l.tokenFile ++
          getCleanKey c.1 c.2.1 ++ '\t' :: c.2.2 ++ ['\n'],
        tokens := l.tokens ++ [(getCleanKey c.1 c.2.1, c.2.2)],
        stats := mapInsert l.stats (getCleanKey c.1 c.2.1) ⟨c.1, c.2.1⟩ }
      hnd'.2 hfresh'
    refine ⟨lf, ?_, ?_, ?_⟩
    · simp only [addAll, hstep]
      exact h1
    · rw [h2]
      simp [pairsOf]
    · rw [h3]
      simp [pairsOf, fileOf]

theorem foldl_loadLine_fresh :
    ∀ (pairs : List (Str × Str)) (acc : List (Str × Str)),
      (∀ p ∈ pairs, ('\t') ∉ p.1 ∧ ('\t') ∉ p.2 ∧
        (splitChar '/' p.1).length = 2 ∧ lookupStr acc p.1 = none) →
      (pairs.map Prod.fst).Nodup →
      (pairs.map (fun p => p.1 ++ '\t' :: p.2)).foldl loadLine acc =
        acc ++ pairs
  | [], acc, _, _ => by simp
  | p :: rest, acc, h, hnd => by
    obtain ⟨ht1, ht2, hsp, hfresh⟩ := h p (List.mem_cons_self _ _)
    have hsplit : splitChar '\t' (p.1 ++ '\t' :: p.2) = [p.1, p.2] :=
      splitChar_pair ht1 ht2
    have hstep : loadLine acc (p.1 ++ '\t' :: p.2) = acc ++ [p] := by
      simp [loadLine, hsplit, hsp, mapInsert, hfresh]
    have hnd' := List.nodup_cons.mp hnd
    have hrest : ∀ q ∈ rest, ('\t') ∉ q.1 ∧ ('\t') ∉ q.2 ∧
        (splitChar '/' q.1).length = 2 ∧
          lookupStr (acc ++ [p]) q.1 = none := by
      intro q hq
      obtain ⟨hq1, hq2, hq3, hq4⟩ := h q (List.mem_cons_of_mem _ hq)
      refine ⟨hq1, hq2, hq3, ?_⟩
      have hne : p.1 ≠ q.1 := fun hEq =>
        hnd'.1 (hEq ▸ List.mem_map.mpr ⟨q, hq, rfl⟩)
      rw [lookupStr_append_right hq4]
      simp [lookupStr, hne]
    calc ((p :: rest).map (fun q => q.1 ++ '\t' :: q.2)).foldl loadLine acc
        = (rest.map (fun q => q.1 ++ '\t' :: q.2)).foldl loadLine
            (loadLine acc (p.1 ++ '\t' :: p.2)) := rfl
      _ = (rest.map (fun q => q.1 ++ '\t' :: q.2)).foldl loadLine
            (acc ++ [p]) := by rw [hstep]
      _ = (acc ++ [p]) ++ rest := foldl_loadLine_fresh rest (acc ++ [p])
            hrest hnd'.2
      _ = acc ++ p :: rest := by simp

theorem scanLines_fileOf (pairs : List (Str × Str))
    (h : ∀ p ∈ pairs, ('\n') ∉ p.1 ∧ ('\n') ∉ p.2 ∧ ('\r') ∉ p.2) :
    scanLines (fileOf pairs) =
      pairs.map (fun p => p.1 ++ '\t' :: p.2) := by
  have hmap : pairs.map (fun p => p.1 ++ '\t' :: p.2 ++ ['\n']) =
      (pairs.map (fun p => p.1 ++ '\t' :: p.2)).map
        (fun line => line ++ ['\n']) := by
    rw [List.map_map]
    apply List.map_congr_left
    intro p _
    simp
  rw [fileOf, hmap]
  apply scanLines_join
  intro line hline
  obtain ⟨p, hp, hpl⟩ := List.mem_map.mp hline
  obtain ⟨hn1, hn2, hr⟩ := h p hp
  constructor
  · rw [← hpl]
    simp [hn1, hn2]
  · rw [← hpl]
    apply dropCR_of_not_cr
    rw [List.getLast?_append_cons]
    exact getLast?_cons_ne (by simp [hr])

/-- C6: starting from an empty store and an empty persisted file, every
sequence of `AddToken` calls with pairwise-distinct composite keys and
delimiter-free components succeeds in full, and reloading a fresh store
from the resulting persisted file then listing it yields exactly the
same `(key, token)` entries, with identical token values, as listing
the live store. -/
theorem addToken_roundtrip (ts : List (Str × Str × Str))
    (hval : ∀ c ∈ ts, ValidCall c)
    (hnd : (ts.map (fun c => getCleanKey c.1 c.2.1)).Nodup) :
    ∃ lf, addAll ts ⟨[], [], []⟩ = some lf ∧
      lf.tokens = pairsOf ts ∧
      GetTokens (loadTokensFromDisk ⟨[], [], lf.tokenFile⟩) =
        GetTokens lf := by
  obtain ⟨lf, h1, h2, h3⟩ :=
    addAll_spec ts ⟨[], [], []⟩ hnd (fun c _ => rfl)
  have h2' : lf.tokens = pairsOf ts := by simpa using h2
  refine ⟨lf, h1, h2', ?_⟩
  have hfst : (pairsOf ts).map Prod.fst =
      ts.map (fun c => getCleanKey c.1 c.2.1) := by
    simp [pairsOf, List.map_map]
  have hscan : scanLines lf.tokenFile =
      (pairsOf ts).map (fun p => p.1 ++ '\t' :: p.2) := by
    rw [h3, List.nil_append]
    apply scanLines_fileOf
    intro p hp
    obtain ⟨c, hc, hpc⟩ := List.mem_map.mp hp
    obtain ⟨hv1, _, _, hv4, _, hv6⟩ := hval c hc
    rw [← hpc]
    exact ⟨hv1, hv4, hv6⟩
  show (loadTokensFromDisk ⟨[], [], lf.tokenFile⟩).tokens = lf.tokens
  rw [loadTokensFromDisk]
  simp only
  rw [hscan, foldl_loadLine_fresh (pairsOf ts) []
    (by
      intro p hp
      obtain ⟨c, hc, hpc⟩ := List.mem_map.mp hp
      obtain ⟨_, hv2, hv3, _, hv5, _⟩ := hval c hc
      rw [← hpc]
      exact ⟨hv2, hv5, hv3, rfl⟩)
    (by rw [hfst]; exact hnd)]
  rw [h2']
  rfl

/-- C6 witness: `addToken_roundtrip` on two calls with distinct keys. -/
theorem addToken_roundtrip_witness :
    ∃ lf, addAll [("Api".data, ("Box1".data, "tok-one".data)),
        ("Api".data, ("Box2".data, "tok-two".data))] ⟨[], [], []⟩ =
      some lf ∧
    lf.tokens = pairsOf [("Api".data, ("Box1".data, "tok-one".data)),
        ("Api".data, ("Box2".data, "tok-two".data))] ∧
    GetTokens (loadTokensFromDisk ⟨[], [], lf.tokenFile⟩) =
      GetTokens lf :=
  addToken_roundtrip
    [("Api".data, ("Box1".data, "tok-one".data)),
     ("Api".data, ("Box2".data, "tok-two".data))]
    (by decide) (by decide)

end Journal
